import Mathlib

/-!
Shallow embedding of the PrivPDF browser application (Neural-Nirvana/privpdf)
and proofs about it.

Byte arrays (JS Uint8Array contents) are modelled as List ℕ whose entries are
below 256; stores into a Uint8Array truncate modulo 256, which the embedding
makes explicit.  Fallible JS code (code that can throw) is modelled with
Option / Except.  IEEE-754 double-precision arithmetic, where it matters
(the mock-compression size computation), is modelled exactly with dyadic
rationals and round-to-nearest-even at 53 significant bits.
-/

namespace PrivPdf

/-! ## PDFProtection container format (unnamed/part_000)

`createEncryptedContainer` builds
`[metadata_length (4 bytes LE)][metadata][salt][iv][encrypted_data]`
by allocating a zeroed `Uint8Array` of the total size and copying each piece
in at its offset with `TypedArray.set` / `DataView.setUint32`.
`parseEncryptedContainer` reads the pieces back.  The JSON encoding of the
metadata object (`JSON.stringify` / `TextEncoder` on the write side,
`TextDecoder` / `JSON.parse` on the read side) is performed by the platform;
it enters the model as an abstract encode/decode pair. -/

/-- The four little-endian bytes stored by `DataView.setUint32(off, n, true)`;
the stored value is `n` modulo `2^32`. -/
def u32le (n : ℕ) : List ℕ :=
  [n % 256, n / 2 ^ 8 % 256, n / 2 ^ 16 % 256, n / 2 ^ 24 % 256]

/-- The value read by `DataView.getUint32(0, true)` from the first four bytes.
Callers guard the length (a short buffer makes `DataView` throw). -/
def getUint32LE : List ℕ → ℕ
  | b0 :: b1 :: b2 :: b3 :: _ => b0 + 2 ^ 8 * b1 + 2 ^ 16 * b2 + 2 ^ 24 * b3
  | _ => 0

/-- `arr.set(src, off)` for an in-bounds write: the bytes of `src` replace
`arr[off … off + src.length)`.  A `Uint8Array` store keeps a value modulo
256, hence the map. -/
def writeAt (arr : List ℕ) (off : ℕ) (src : List ℕ) : List ℕ :=
  arr.take off ++ src.map (· % 256) ++ arr.drop (off + src.length)

/-- `PDFProtection.createEncryptedContainer`, applied to the already
JSON-encoded metadata bytes: allocate `4 + |metadata| + |salt| + |iv| + |ct|`
zero bytes, then write the length word and the four pieces at increasing
offsets. -/
def createEncryptedContainer (metadataBytes salt iv encryptedData : List ℕ) :
    List ℕ :=
  let total :=
    4 + metadataBytes.length + salt.length + iv.length + encryptedData.length
  let c0 := List.replicate total 0
  let c1 := writeAt c0 0 (u32le metadataBytes.length)
  let c2 := writeAt c1 4 metadataBytes
  let c3 := writeAt c2 (4 + metadataBytes.length) salt
  let c4 := writeAt c3 (4 + metadataBytes.length + salt.length) iv
  writeAt c4 (4 + metadataBytes.length + salt.length + iv.length) encryptedData

/-- Result of `PDFProtection.parseEncryptedContainer`. -/
structure ParsedContainer (M : Type) where
  metadata : M
  salt : List ℕ
  iv : List ℕ
  encryptedData : List ℕ
deriving DecidableEq

/-- `PDFProtection.parseEncryptedContainer`: read the 4-byte little-endian
metadata length, decode the metadata bytes (`JSON.parse`, abstracted as
`dec`), then take 16 salt bytes, 12 IV bytes, and the rest as ciphertext.
Any out-of-range view construction or a failing `JSON.parse` throws in JS;
both are `none` here. -/
def parseEncryptedContainer {M : Type} (dec : List ℕ → Option M)
    (data : List ℕ) : Option (ParsedContainer M) :=
  if 4 ≤ data.length then
    let metadataLength := getUint32LE data
    if 4 + metadataLength + 16 + 12 ≤ data.length then
      match dec ((data.drop 4).take metadataLength) with
      | none => none
      | some m =>
        some ⟨m, (data.drop (4 + metadataLength)).take 16,
          (data.drop (4 + metadataLength + 16)).take 12,
          data.drop (4 + metadataLength + 16 + 12)⟩
    else none
  else none

/-! ## QPDFEncryption mock fallback (unnamed/part_001)

`createMockQPDF().encrypt` copies the input into a fresh `Uint8Array` and
XORs each byte with a 256-byte key derived from the password;
`generateKey` fills `key[i] = passwordBytes[i % passwordBytes.length] ^ (i*17)`,
truncated to a byte by the `Uint8Array` store.  Passwords are modelled by
their UTF-8 bytes; the platform's `TextEncoder` is outside the model. -/

/-- UTF-8 bytes of the string literal used when `options.userPassword` is
falsy: the seven bytes of the word written d-e-f-a-u-l-t. -/
def defaultPasswordBytes : List ℕ := [100, 101, 102, 97, 117, 108, 116]

/-- `QPDFEncryption.generateKey`: a 256-entry key;
entry `i` is `passwordBytes[i % passwordBytes.length] ^ (i * 17)` stored into
a `Uint8Array` (hence modulo 256). -/
def generateKey (passwordBytes : List ℕ) : List ℕ :=
  (List.range 256).map fun i =>
    (passwordBytes.getD (i % passwordBytes.length) 0 ^^^ (i * 17)) % 256

/-- The mock `encrypt` of `createMockQPDF`: select the password
(`options.userPassword || 'default'`), generate the key, copy the data and
XOR byte `i` with `key[i % key.length]`.  The copy's bytes are again stored
through a `Uint8Array`, hence the modulo. -/
def mockEncrypt (pdfData userPassword : List ℕ) : List ℕ :=
  let passwordBytes :=
    if userPassword = [] then defaultPasswordBytes else userPassword
  let key := generateKey passwordBytes
  (List.range pdfData.length).map fun i =>
    (pdfData.getD i 0 ^^^ key.getD (i % key.length) 0) % 256

/-! ## PrivPDF application state (privpdf.js)

The app holds a map of loaded files, a set of selected pages, a map of
accumulated page rotations and a page-order list.  `resetTool` clears all
four; `switchTool` records the current tool and calls `resetTool`.
The DOM manipulation is outside the model. -/

/-- The mutable state of the `PrivPDF` class; `File` abstracts the browser
file objects stored in `loadedPDFs`. -/
structure AppState (File : Type) where
  currentTool : String
  loadedPDFs : List (ℕ × File)
  selectedPages : List ℕ
  pageRotations : List (ℕ × ℤ)
  pageOrder : List ℕ

/-- `PrivPDF.resetTool`: clear the four pieces of application state. -/
def resetTool {File : Type} (s : AppState File) : AppState File :=
  { s with loadedPDFs := [], selectedPages := [], pageRotations := [],
           pageOrder := [] }

/-- `PrivPDF.switchTool`: record the tool, then `resetTool`. -/
def switchTool {File : Type} (tool : String) (s : AppState File) :
    AppState File :=
  resetTool { s with currentTool := tool }

/-- `Map.set` on an association list: replace the binding if the key is
present, otherwise append it. -/
def mapSet : List (ℕ × ℤ) → ℕ → ℤ → List (ℕ × ℤ)
  | [], k, v => [(k, v)]
  | (a, b) :: rest, k, v =>
    if a = k then (k, v) :: rest else (a, b) :: mapSet rest k v

/-- The JS remainder operator on integers: truncated division, the result
takes the sign of the dividend. -/
def jsRem (a b : ℤ) : ℤ := Int.tmod a b

/-- `PrivPDF.rotatePage`: `(current + degrees + 360) % 360` where `current`
is the stored rotation or 0. -/
def rotatePage (rot : List (ℕ × ℤ)) (pageNum : ℕ) (degrees : ℤ) :
    List (ℕ × ℤ) :=
  let current := (rot.lookup pageNum).getD 0
  mapSet rot pageNum (jsRem (current + degrees + 360) 360)

/-- Fold a sequence of `rotatePage` calls over the initially empty
`pageRotations` map. -/
def applyRotations (calls : List (ℕ × ℤ)) : List (ℕ × ℤ) :=
  calls.foldl (fun rot c => rotatePage rot c.1 c.2) []

/-! ## PrivPDF.parsePageRange (privpdf.js)

`parsePageRange` splits the range string on commas; a part containing a
hyphen is split again and its two bounds are fed through `parseInt(...) - 1`,
then a `for` loop pushes every in-bounds index; a plain part contributes its
single in-bounds index.  The collected indices are deduplicated through a
`Set` and sorted numerically.  `parseInt` returning `NaN` is modelled as
`none`; a `NaN` bound makes the loop condition false, so nothing is pushed. -/

/-- Value of a decimal digit character, `none` otherwise. -/
def decDigit (c : Char) : Option ℕ :=
  if c.isDigit then some (c.toNat - 48) else none

/-- Value of a hexadecimal digit character, `none` otherwise. -/
def hexDigit (c : Char) : Option ℕ :=
  if c.isDigit then some (c.toNat - 48)
  else if 'a' ≤ c ∧ c ≤ 'f' then some (c.toNat - 87)
  else if 'A' ≤ c ∧ c ≤ 'F' then some (c.toNat - 55)
  else none

/-- Longest leading run of digits. -/
def takeDigits (f : Char → Option ℕ) : List Char → List ℕ
  | [] => []
  | c :: cs =>
    match f c with
    | some d => d :: takeDigits f cs
    | none => []

/-- Digit list to number in the given base. -/
def digitsToNat (base : ℕ) (ds : List ℕ) : ℕ :=
  ds.foldl (fun a d => a * base + d) 0

/-- JS `parseInt(s)` (radix argument omitted): trim, optional sign, an
optional hexadecimal 0x/0X marker, then the longest leading digit run;
`NaN` (no digits) is `none`. -/
def jsParseInt (s : String) : Option ℤ :=
  let signed : ℤ × List Char :=
    match s.trim.data with
    | '-' :: cs => (-1, cs)
    | '+' :: cs => (1, cs)
    | cs => (1, cs)
  let based : ℕ × List Char :=
    match signed.2 with
    | '0' :: 'x' :: rest => (16, rest)
    | '0' :: 'X' :: rest => (16, rest)
    | cs => (10, cs)
  let ds := takeDigits (if based.1 = 16 then hexDigit else decDigit) based.2
  if ds = [] then none else some (signed.1 * digitsToNat based.1 ds)

/-- The integers of the JS loop `for (let i = a; i <= b; i++)`. -/
def rangeClosed (a b : ℤ) : List ℤ :=
  if a ≤ b then (List.range (b - a + 1).toNat).map (fun k => a + k) else []

/-- The `start`/`end` candidates of a hyphenated part:
`trimmed.split('-').map(n => parseInt(n.trim()) - 1)`. -/
def rangePartNums (trimmed : String) : List (Option ℤ) :=
  (trimmed.splitOn "-").map fun n => (jsParseInt n.trim).map (· - 1)

/-- One part of the comma-separated range: the page indices it pushes. -/
def parseRangePart (maxPage : ℕ) (part : String) : List ℤ :=
  if part.trim.contains '-' then
    match (rangePartNums part.trim).getD 0 none,
        (rangePartNums part.trim).getD 1 none with
    | some a, some b =>
      (rangeClosed a (min b ((maxPage : ℤ) - 1))).filter
        fun i => decide (0 ≤ i ∧ i < (maxPage : ℤ))
    | _, _ => []
  else
    match (jsParseInt part.trim).map (· - 1) with
    | some p => if 0 ≤ p ∧ p < (maxPage : ℤ) then [p] else []
    | none => []

/-- `PrivPDF.parsePageRange`: collect the indices of every part, then
`[...new Set(pages)].sort((a, b) => a - b)` — deduplicate and sort
ascending. -/
def parsePageRange (range : String) (maxPage : ℕ) : List ℤ :=
  let pages := (range.splitOn ",").foldl
    (fun pages part => pages ++ parseRangePart maxPage part) []
  List.insertionSort (· ≤ ·) pages.dedup

/-! ## GhostscriptWASM loading (ghostscript-wasm.js)

`loadRealModule` dynamically imports the WASM module; if the import or the
initialization throws, the `catch` installs the mock module instead and
returns normally.  `loadModule` guards with `isLoaded` / `isLoading`, sets
`isLoading`, awaits `loadRealModule`, then sets `isLoaded`.  Progress
callbacks only report text and are outside the model. -/

/-- Whether the dynamic `import()` + `initGhostscript` succeed or throw in a
given execution. -/
inductive LoadOutcome
  | ok
  | failure
deriving DecidableEq

/-- The fields of the `GhostscriptWASM` class that the loading logic touches:
`gs` (the real engine handle, `null` initially), the `module` compression
interface, and the two flags. -/
structure GSState where
  gs : Bool
  hasModule : Bool
  isLoaded : Bool
  isLoading : Bool
deriving DecidableEq

/-- The `import()` / `initGhostscript` step: on success the `gs` handle is
set; on failure it throws. -/
def importGhostscript (outcome : LoadOutcome) (s : GSState) :
    Except String GSState :=
  match outcome with
  | .ok => .ok { s with gs := true }
  | .failure => .error "Failed to fetch dynamically imported module"

/-- `GhostscriptWASM.loadMockModule`: install the mock compression module. -/
def loadMockModule (s : GSState) : GSState := { s with hasModule := true }

/-- `GhostscriptWASM.loadRealModule`: try the real import and install the
compression interface; on any error, fall back to the mock module and return
normally. -/
def loadRealModule (outcome : LoadOutcome) (s : GSState) :
    Except String GSState :=
  match importGhostscript outcome s with
  | .ok s1 => .ok { s1 with hasModule := true }
  | .error _e => .ok (loadMockModule s)

/-- `GhostscriptWASM.loadModule` for a call that runs to completion without
interleaving: return early when loaded; when a load is in flight the call
only waits (the multi-call behaviour is the loader state machine below);
otherwise set `isLoading`, run `loadRealModule` under try/catch, and mark
the module loaded. -/
def loadModule (outcome : LoadOutcome) (s : GSState) : Except String GSState :=
  if s.isLoaded then .ok s
  else if s.isLoading then .ok s
  else
    match loadRealModule outcome { s with isLoading := true } with
    | .ok s2 => .ok { s2 with isLoaded := true, isLoading := false }
    | .error e => .error e

/-- `GhostscriptWASM.getStatus`. -/
def getStatus (s : GSState) : String :=
  if s.isLoading then "loading"
  else if s.isLoaded then "ready"
  else "not-loaded"

/-! ## Concurrent `loadModule` calls as a state machine

The browser event loop interleaves concurrent `loadModule` calls only at
`await` points.  The synchronous prefix (check `isLoaded`, check `isLoading`,
set `isLoading = true`) is therefore one atomic step, the completion of
`loadRealModule` plus the flag updates another, and each poll of the
busy-wait loop (`while (this.isLoading) await …`) another.  Each concurrent
call is a program counter in a list. -/

/-- Program counter of one in-flight `loadModule` call. -/
inductive CallPC
  | start
  | poll
  | inLoad
  | done
deriving DecidableEq

/-- The shared object state plus every call's program counter. -/
structure LoaderSys where
  procs : List CallPC
  isLoaded : Bool
  isLoading : Bool
deriving DecidableEq

/-- One event-loop step of some call `i`. -/
inductive LoaderStep : LoaderSys → LoaderSys → Prop
  | returnLoaded (i : ℕ) (s : LoaderSys) (h : s.procs[i]? = some .start)
      (hl : s.isLoaded = true) :
      LoaderStep s { s with procs := s.procs.set i .done }
  | beginPolling (i : ℕ) (s : LoaderSys) (h : s.procs[i]? = some .start)
      (hl : s.isLoaded = false) (hg : s.isLoading = true) :
      LoaderStep s { s with procs := s.procs.set i .poll }
  | beginLoad (i : ℕ) (s : LoaderSys) (h : s.procs[i]? = some .start)
      (hl : s.isLoaded = false) (hg : s.isLoading = false) :
      LoaderStep s { s with procs := s.procs.set i .inLoad, isLoading := true }
  | pollWait (i : ℕ) (s : LoaderSys) (h : s.procs[i]? = some .poll)
      (hg : s.isLoading = true) :
      LoaderStep s s
  | pollDone (i : ℕ) (s : LoaderSys) (h : s.procs[i]? = some .poll)
      (hg : s.isLoading = false) :
      LoaderStep s { s with procs := s.procs.set i .done }
  | finishOk (i : ℕ) (s : LoaderSys) (h : s.procs[i]? = some .inLoad) :
      LoaderStep s { s with procs := s.procs.set i .done, isLoaded := true,
                            isLoading := false }
  | finishErr (i : ℕ) (s : LoaderSys) (h : s.procs[i]? = some .inLoad) :
      LoaderStep s { s with procs := s.procs.set i .done, isLoading := false }

/-- Reflexive-transitive closure of `LoaderStep`. -/
inductive LoaderReach : LoaderSys → LoaderSys → Prop
  | refl (s : LoaderSys) : LoaderReach s s
  | tail {s t u : LoaderSys} : LoaderReach s t → LoaderStep t u →
      LoaderReach s u

/-- `n` fresh `loadModule` calls against a fresh `GhostscriptWASM` object. -/
def initSys (n : ℕ) : LoaderSys := ⟨List.replicate n .start, false, false⟩

/-- How many calls are currently inside `loadRealModule`. -/
def loadsInProgress (s : LoaderSys) : ℕ := s.procs.countP (· == .inLoad)

/-! ## Mock compression sizes in IEEE-754 doubles (ghostscript-wasm.js)

`mockCompression` reports a buffer of `Math.floor(pdfData.byteLength * ratio)`
bytes, where `ratio` comes from `getCompressionRatio` and the product is an
IEEE-754 double-precision multiplication.  Nonnegative dyadic rationals
`m / 2^k` represent the doubles exactly; `roundDouble` is round-to-nearest,
ties-to-even, at 53 significant bits (all values met here are far from the
subnormal and overflow ranges). -/

/-- A nonnegative dyadic rational `m / 2^k`. -/
structure Dyadic where
  m : ℕ
  k : ℕ
deriving DecidableEq

/-- The rational value of a dyadic. -/
def Dyadic.toRat (x : Dyadic) : ℚ := (x.m : ℚ) / 2 ^ x.k

/-- Fuel-driven count of how many binary digits of `n` exceed 53 bits
(0 when `n < 2^53`); the fuel only needs to dominate the digit count. -/
def bitsAbove53 : ℕ → ℕ → ℕ
  | 0, _ => 0
  | fuel + 1, n => if n < 2 ^ 53 then 0 else bitsAbove53 fuel (n / 2) + 1

/-- Number of low bits that must be rounded away to fit `n` in a 53-bit
significand. -/
def excess (n : ℕ) : ℕ := bitsAbove53 n n

/-- Round `m` to a multiple of `2^d`, to nearest, ties to even, returning
the multiplier. -/
def roundSig (m d : ℕ) : ℕ :=
  if 2 ^ (d - 1) < m % 2 ^ d ∨
      (m % 2 ^ d = 2 ^ (d - 1) ∧ (m / 2 ^ d) % 2 = 1) then
    m / 2 ^ d + 1
  else m / 2 ^ d

/-- Round a nonnegative dyadic to the nearest IEEE-754 double
(53-bit significand, ties to even). -/
def roundDouble (x : Dyadic) : Dyadic :=
  if excess x.m = 0 then x
  else if excess x.m ≤ x.k then ⟨roundSig x.m (excess x.m), x.k - excess x.m⟩
  else ⟨roundSig x.m (excess x.m) * 2 ^ (excess x.m - x.k), 0⟩

/-- The double closest to the literal 0.3 (`5404319552844595 / 2^54`). -/
def jsDouble03 : Dyadic := ⟨5404319552844595, 54⟩

/-- The double of the literal 0.5 (exact). -/
def jsDouble05 : Dyadic := ⟨1, 1⟩

/-- The double closest to the literal 0.7 (`3152519739159347 / 2^52`). -/
def jsDouble07 : Dyadic := ⟨3152519739159347, 52⟩

/-- The double closest to the literal 0.85 (`7656119366529843 / 2^53`). -/
def jsDouble085 : Dyadic := ⟨7656119366529843, 53⟩

/-- The property names a plain object literal inherits from
`Object.prototype`.  Looking any of them up on the `ratios` literal yields a
truthy non-number (a function, or the prototype object for the
`__proto__` accessor), so `ratios[quality] || ratios.ebook` returns it
instead of falling back to 0.5. -/
def objectProtoNames : List String :=
  ["constructor", "hasOwnProperty", "isPrototypeOf", "propertyIsEnumerable",
   "toLocaleString", "toString", "valueOf", "__defineGetter__",
   "__defineSetter__", "__lookupGetter__", "__lookupSetter__", "__proto__"]

/-- What `ratios[quality] || ratios.ebook` can produce: one of the numeric
ratios, or a truthy non-number inherited from `Object.prototype`. -/
inductive RatioValue
  | num (d : Dyadic)
  | protoMember
deriving DecidableEq

/-- `GhostscriptWASM.getCompressionRatio`: the four own properties of the
`ratios` literal, then the `Object.prototype` members (truthy, so `||`
keeps them), then `undefined || ratios.ebook = 0.5`. -/
def getCompressionRatio (quality : String) : RatioValue :=
  if quality = "screen" then .num jsDouble03
  else if quality = "ebook" then .num jsDouble05
  else if quality = "printer" then .num jsDouble07
  else if quality = "prepress" then .num jsDouble085
  else if quality ∈ objectProtoNames then .protoMember
  else .num jsDouble05

/-- Exact product of two dyadics; the double multiplication is this product
followed by one `roundDouble`. -/
def dyadicMul (x y : Dyadic) : Dyadic := ⟨x.m * y.m, x.k + y.k⟩

/-- `Math.floor` of a nonnegative dyadic. -/
def Dyadic.floorNat (x : Dyadic) : ℕ := x.m / 2 ^ x.k

/-- The byte length produced by `GhostscriptWASM.simulateCompression`:
`Math.floor(pdfData.byteLength * ratio)` with the length and ratio as
doubles and one double multiplication.  When the ratio is an inherited
`Object.prototype` member, the product is `NaN`, `Math.floor(NaN)` is
`NaN`, and `new Uint8Array(NaN)` has length 0. -/
def simulateCompressionLength (n : ℕ) (quality : String) : ℕ :=
  match getCompressionRatio quality with
  | .num r => (roundDouble (dyadicMul (roundDouble ⟨n, 0⟩) r)).floorNat
  | .protoMember => 0

/-- The ratio the claim attributes to each quality string, as an exact
numerator/denominator pair.  (Spec-side definition, for comparison with the
code's double arithmetic.) -/
def claimedRatio (quality : String) : ℕ × ℕ :=
  if quality = "screen" then (3, 10)
  else if quality = "ebook" then (1, 2)
  else if quality = "printer" then (7, 10)
  else if quality = "prepress" then (17, 20)
  else (1, 2)

/-! ## Helper lemmas -/

theorem map_mod_256_eq_self {l : List ℕ} (h : ∀ b ∈ l, b < 256) :
    l.map (· % 256) = l := by
  induction l with
  | nil => rfl
  | cons a t ih =>
    have ha : a < 256 := h a (List.mem_cons_self a t)
    simp only [List.map_cons, Nat.mod_eq_of_lt ha]
    rw [ih fun b hb => h b (List.mem_cons_of_mem a hb)]

theorem u32le_length (n : ℕ) : (u32le n).length = 4 := rfl

theorem u32le_bytes_lt (n : ℕ) : ∀ b ∈ u32le n, b < 256 := by
  simp only [u32le, List.mem_cons, List.not_mem_nil, or_false]
  rintro b (rfl | rfl | rfl | rfl) <;> omega

theorem getUint32LE_u32le_append (n : ℕ) (tail : List ℕ) (h : n < 2 ^ 32) :
    getUint32LE (u32le n ++ tail) = n := by
  simp only [u32le, List.cons_append, List.nil_append, getUint32LE]
  omega

theorem writeAt_step (A src : List ℕ) (r : ℕ)
    (hb : ∀ b ∈ src, b < 256) :
    writeAt (A ++ List.replicate r 0) A.length src
      = (A ++ src) ++ List.replicate (r - src.length) 0 := by
  unfold writeAt
  rw [List.take_left, map_mod_256_eq_self hb, List.drop_append,
    List.drop_replicate, List.append_assoc]

/-- The container really is the length word and the four pieces
concatenated. -/
theorem createEncryptedContainer_eq (m salt iv ct : List ℕ)
    (hm : ∀ b ∈ m, b < 256) (hsb : ∀ b ∈ salt, b < 256)
    (hib : ∀ b ∈ iv, b < 256) (hcb : ∀ b ∈ ct, b < 256) :
    createEncryptedContainer m salt iv ct
      = u32le m.length ++ m ++ salt ++ iv ++ ct := by
  show writeAt (writeAt (writeAt (writeAt (writeAt
      (List.replicate (4 + m.length + salt.length + iv.length + ct.length) 0)
      0 (u32le m.length)) 4 m) (4 + m.length) salt)
      (4 + m.length + salt.length) iv)
      (4 + m.length + salt.length + iv.length) ct
    = u32le m.length ++ m ++ salt ++ iv ++ ct
  have e1 := writeAt_step [] (u32le m.length)
    (4 + m.length + salt.length + iv.length + ct.length)
    (u32le_bytes_lt m.length)
  simp only [List.nil_append, List.length_nil] at e1
  rw [e1, u32le_length]
  have e2 := writeAt_step (u32le m.length) m
    (4 + m.length + salt.length + iv.length + ct.length - 4) hm
  rw [u32le_length] at e2
  rw [e2]
  have e3 := writeAt_step (u32le m.length ++ m) salt
    (4 + m.length + salt.length + iv.length + ct.length - 4 - m.length)
    hsb
  rw [List.length_append, u32le_length] at e3
  rw [e3]
  have e4 := writeAt_step (u32le m.length ++ m ++ salt) iv
    (4 + m.length + salt.length + iv.length + ct.length - 4 - m.length
      - salt.length) hib
  rw [List.length_append, List.length_append, u32le_length] at e4
  rw [show 4 + m.length + salt.length = 4 + m.length + salt.length from rfl] at e4
  rw [e4]
  have e5 := writeAt_step (u32le m.length ++ m ++ salt ++ iv) ct
    (4 + m.length + salt.length + iv.length + ct.length - 4 - m.length
      - salt.length - iv.length) hcb
  rw [List.length_append, List.length_append, List.length_append,
    u32le_length] at e5
  rw [show 4 + m.length + salt.length + iv.length
      = 4 + m.length + salt.length + iv.length from rfl] at e5
  rw [e5]
  have : 4 + m.length + salt.length + iv.length + ct.length - 4 - m.length
      - salt.length - iv.length - ct.length = 0 := by omega
  rw [this]
  simp [List.append_assoc]

/-! ## Claim theorems -/

/-- Claim C1: for every metadata byte string, salt, IV and ciphertext (with
the claimed 16/12-byte sizes and an encodable metadata length),
`createEncryptedContainer` lays the container out as a 4-byte little-endian
length word holding the metadata length, then the metadata, salt, IV and
ciphertext, with total length `4 + |metadata| + 16 + 12 + |ciphertext|`. -/
theorem createEncryptedContainer_layout (m salt iv ct : List ℕ)
    (hm : ∀ b ∈ m, b < 256) (hsb : ∀ b ∈ salt, b < 256)
    (hib : ∀ b ∈ iv, b < 256) (hcb : ∀ b ∈ ct, b < 256)
    (hs : salt.length = 16) (hi : iv.length = 12)
    (hlen : m.length < 2 ^ 32) :
    createEncryptedContainer m salt iv ct
        = u32le m.length ++ m ++ salt ++ iv ++ ct ∧
      (createEncryptedContainer m salt iv ct).length
        = 4 + m.length + 16 + 12 + ct.length ∧
      getUint32LE (createEncryptedContainer m salt iv ct) = m.length := by
  have he := createEncryptedContainer_eq m salt iv ct hm hsb hib hcb
  refine ⟨he, ?_, ?_⟩
  · rw [he]
    simp [u32le_length, hs, hi]
    omega
  · rw [he, List.append_assoc, List.append_assoc, List.append_assoc,
      getUint32LE_u32le_append _ _ hlen]

/-- Claim C1 witness at concrete inputs. -/
theorem createEncryptedContainer_layout_witness :
    createEncryptedContainer [1, 2] (List.replicate 16 7)
        (List.replicate 12 8) [9, 10]
        = u32le 2 ++ [1, 2] ++ List.replicate 16 7
            ++ List.replicate 12 8 ++ [9, 10] ∧
      (createEncryptedContainer [1, 2] (List.replicate 16 7)
        (List.replicate 12 8) [9, 10]).length = 4 + 2 + 16 + 12 + 2 ∧
      getUint32LE (createEncryptedContainer [1, 2] (List.replicate 16 7)
        (List.replicate 12 8) [9, 10]) = 2 := by
  have h := createEncryptedContainer_layout [1, 2] (List.replicate 16 7)
    (List.replicate 12 8) [9, 10] (by decide) (by decide) (by decide)
    (by decide) (by decide) (by decide) (by decide)
  simpa using h

/-- Claim C2: when the metadata survives its JSON round trip
(`dec (enc meta) = some meta`), parsing the container built from it returns
exactly the original metadata, salt, IV and ciphertext. -/
theorem parseEncryptedContainer_roundTrip {M : Type} (enc : M → List ℕ)
    (dec : List ℕ → Option M) (meta : M) (salt iv ct : List ℕ)
    (hstable : dec (enc meta) = some meta)
    (hm : ∀ b ∈ enc meta, b < 256) (hsb : ∀ b ∈ salt, b < 256)
    (hib : ∀ b ∈ iv, b < 256) (hcb : ∀ b ∈ ct, b < 256)
    (hs : salt.length = 16) (hi : iv.length = 12)
    (hlen : (enc meta).length < 2 ^ 32) :
    parseEncryptedContainer dec (createEncryptedContainer (enc meta) salt iv ct)
      = some ⟨meta, salt, iv, ct⟩ := by
  rw [createEncryptedContainer_eq (enc meta) salt iv ct hm hsb hib hcb]
  have hlen4 : (u32le (enc meta).length).length = 4 := u32le_length _
  have hdata : u32le (enc meta).length ++ enc meta ++ salt ++ iv ++ ct
      = u32le (enc meta).length ++ (enc meta ++ (salt ++ (iv ++ ct))) := by
    simp [List.append_assoc]
  have hlentot : (u32le (enc meta).length ++ enc meta ++ salt ++ iv
      ++ ct).length = 4 + (enc meta).length + salt.length + iv.length
        + ct.length := by
    simp [u32le_length]
    omega
  have hval : getUint32LE (u32le (enc meta).length ++ enc meta ++ salt ++ iv
      ++ ct) = (enc meta).length := by
    rw [hdata, getUint32LE_u32le_append _ _ hlen]
  unfold parseEncryptedContainer
  rw [hval, hlentot]
  rw [if_pos (by omega), if_pos (by omega)]
  have hdrop4 : (u32le (enc meta).length ++ enc meta ++ salt ++ iv
      ++ ct).drop 4 = enc meta ++ (salt ++ (iv ++ ct)) := by
    rw [hdata]; exact List.drop_left' hlen4
  have htakem : (enc meta ++ (salt ++ (iv ++ ct))).take (enc meta).length
      = enc meta := List.take_left' rfl
  have hdropm : (u32le (enc meta).length ++ enc meta ++ salt ++ iv
      ++ ct).drop (4 + (enc meta).length) = salt ++ (iv ++ ct) := by
    have : u32le (enc meta).length ++ enc meta ++ salt ++ iv ++ ct
        = (u32le (enc meta).length ++ enc meta) ++ (salt ++ (iv ++ ct)) := by
      simp [List.append_assoc]
    rw [this]
    exact List.drop_left' (by simp [u32le_length])
  have hdrops : (u32le (enc meta).length ++ enc meta ++ salt ++ iv
      ++ ct).drop (4 + (enc meta).length + 16) = iv ++ ct := by
    have : u32le (enc meta).length ++ enc meta ++ salt ++ iv ++ ct
        = (u32le (enc meta).length ++ enc meta ++ salt) ++ (iv ++ ct) := by
      simp [List.append_assoc]
    rw [this]
    exact List.drop_left' (by simp [u32le_length]; omega)
  have hdropi : (u32le (enc meta).length ++ enc meta ++ salt ++ iv
      ++ ct).drop (4 + (enc meta).length + 16 + 12) = ct := by
    have : u32le (enc meta).length ++ enc meta ++ salt ++ iv ++ ct
        = (u32le (enc meta).length ++ enc meta ++ salt ++ iv) ++ ct := by
      simp [List.append_assoc]
    rw [this]
    exact List.drop_left' (by simp [u32le_length]; omega)
  rw [hdrop4, htakem, hstable, hdropm, hdrops, hdropi]
  have htakes : (salt ++ (iv ++ ct)).take 16 = salt := List.take_left' hs
  have htakei : (iv ++ ct).take 12 = iv := List.take_left' hi
  rw [htakes, htakei]

/-- Claim C2 witness: round trip at concrete inputs, with the identity
byte encoding standing in for a parse-stable JSON encoding. -/
theorem parseEncryptedContainer_roundTrip_witness :
    parseEncryptedContainer (some : List ℕ → Option (List ℕ))
        (createEncryptedContainer [3, 4, 5] (List.replicate 16 7)
          (List.replicate 12 8) [9, 10])
      = some ⟨[3, 4, 5], List.replicate 16 7, List.replicate 12 8,
          [9, 10]⟩ :=
  parseEncryptedContainer_roundTrip (fun l => l) some [3, 4, 5]
    (List.replicate 16 7) (List.replicate 12 8) [9, 10] rfl (by decide)
    (by decide) (by decide) (by decide) (by decide) (by decide) (by decide)

/-- XOR against a byte commutes with byte truncation on the other operand. -/
theorem xor_mod_two_pow_eight {a : ℕ} (b : ℕ) (ha : a < 2 ^ 8) :
    (a ^^^ b) % 2 ^ 8 = a ^^^ (b % 2 ^ 8) := by
  apply Nat.eq_of_testBit_eq
  intro i
  rw [Nat.testBit_mod_two_pow, Nat.testBit_xor, Nat.testBit_xor,
    Nat.testBit_mod_two_pow]
  by_cases h : i < 8
  · simp [h]
  · have ha8 : a < 2 ^ i := lt_of_lt_of_le ha
      (Nat.pow_le_pow_right (by omega) (by omega))
    simp [h, Nat.testBit_lt_two_pow ha8]

/-- Bound for `getD` with a bounded list and default 0. -/
theorem getD_lt_256 (l : List ℕ) (i : ℕ) (h : ∀ b ∈ l, b < 256) :
    l.getD i 0 < 256 := by
  by_cases hi : i < l.length
  · rw [List.getD_eq_getElem l 0 hi]
    exact h _ (List.getElem_mem hi)
  · rw [List.getD_eq_default l 0 (by omega)]
    omega

/-- Indexing a map over a range. -/
theorem getD_map_range {n i : ℕ} (f : ℕ → ℕ) (h : i < n) :
    ((List.range n).map f).getD i 0 = f i := by
  rw [List.getD_eq_getElem _ 0 (by simpa using h), List.getElem_map,
    List.getElem_range]

theorem generateKey_length (pb : List ℕ) : (generateKey pb).length = 256 := by
  simp [generateKey]

/-- Every key entry is a byte. -/
theorem generateKey_getD_lt (pb : List ℕ) (j : ℕ) :
    (generateKey pb).getD j 0 < 256 := by
  by_cases hj : j < 256
  · rw [generateKey, getD_map_range _ hj]
    omega
  · rw [List.getD_eq_default _ 0 (by rw [generateKey_length]; omega)]
    omega

/-- Claim C3: the mock QPDF `encrypt` preserves the length and XORs byte `i`
with `key[i % 256]`, where the key entry `j` is
`passwordBytes[j % passwordBytes.length] XOR (j*17 mod 256)` and the
password is `userPassword` when nonempty, the default word otherwise.
(The code copies the input into a fresh array, so the input is unchanged;
the model is a pure function of it.) -/
theorem mockEncrypt_spec (data pw : List ℕ)
    (hdata : ∀ b ∈ data, b < 256) (hpw : ∀ b ∈ pw, b < 256) :
    (mockEncrypt data pw).length = data.length ∧
      (∀ i, i < data.length →
        (mockEncrypt data pw).getD i 0 =
          data.getD i 0 ^^^
            (generateKey (if pw = [] then defaultPasswordBytes else pw)).getD
              (i % 256) 0) ∧
      (∀ j, j < 256 →
        (generateKey (if pw = [] then defaultPasswordBytes else pw)).getD j 0
          = (if pw = [] then defaultPasswordBytes else pw).getD
              (j % (if pw = [] then defaultPasswordBytes else pw).length) 0
            ^^^ (j * 17 % 256)) := by
  have hpb : ∀ b ∈ (if pw = [] then defaultPasswordBytes else pw), b < 256 := by
    split
    · decide
    · exact hpw
  refine ⟨by simp [mockEncrypt], ?_, ?_⟩
  · intro i hi
    rw [mockEncrypt, getD_map_range _ hi, generateKey_length]
    have hb : data.getD i 0 < 256 := getD_lt_256 data i hdata
    have hk : (generateKey (if pw = [] then defaultPasswordBytes
        else pw)).getD (i % 256) 0 < 256 := generateKey_getD_lt _ _
    exact Nat.mod_eq_of_lt (Nat.xor_lt_two_pow (n := 8) hb hk)
  · intro j hj
    rw [generateKey, getD_map_range _ hj]
    exact xor_mod_two_pow_eight (j * 17)
      (getD_lt_256 _ _ hpb)

/-- Claim C3 witness at concrete inputs (empty password selects the
default). -/
theorem mockEncrypt_spec_witness :
    (mockEncrypt [5, 255] []).length = 2 ∧
      (∀ i, i < 2 →
        (mockEncrypt [5, 255] []).getD i 0 =
          [5, 255].getD i 0 ^^^
            (generateKey (if ([] : List ℕ) = [] then defaultPasswordBytes
              else [])).getD (i % 256) 0) ∧
      (∀ j, j < 256 →
        (generateKey (if ([] : List ℕ) = [] then defaultPasswordBytes
          else [])).getD j 0
          = (if ([] : List ℕ) = [] then defaultPasswordBytes else []).getD
              (j % (if ([] : List ℕ) = [] then defaultPasswordBytes
                else []).length) 0
            ^^^ (j * 17 % 256)) := by
  have h := mockEncrypt_spec [5, 255] [] (by decide) (by decide)
  simpa using h

/-- Claim C9: applying the mock XOR `encrypt` twice with the same password
returns the original bytes. -/
theorem mockEncrypt_involution (data pw : List ℕ)
    (hdata : ∀ b ∈ data, b < 256) :
    mockEncrypt (mockEncrypt data pw) pw = data := by
  have hlen1 : (mockEncrypt data pw).length = data.length := by
    simp [mockEncrypt]
  apply List.ext_getElem (by simp [mockEncrypt])
  intro i h1 h2
  have hi : i < data.length := h2
  have hilen : i < (mockEncrypt data pw).length := by omega
  have houter : (mockEncrypt (mockEncrypt data pw) pw)[i] =
      ((mockEncrypt data pw).getD i 0 ^^^
        (generateKey (if pw = [] then defaultPasswordBytes else pw)).getD
          (i % 256) 0) % 256 := by
    rw [← List.getD_eq_getElem _ 0 h1]
    rw [mockEncrypt, getD_map_range _ (by simpa [mockEncrypt] using hilen)]
    rw [generateKey_length]
  have hinner : (mockEncrypt data pw).getD i 0 =
      (data.getD i 0 ^^^
        (generateKey (if pw = [] then defaultPasswordBytes else pw)).getD
          (i % 256) 0) % 256 := by
    rw [mockEncrypt, getD_map_range _ hi, generateKey_length]
  set k := (generateKey (if pw = [] then defaultPasswordBytes else pw)).getD
    (i % 256) 0 with hk
  have hkb : k < 256 := generateKey_getD_lt _ _
  have hb : data.getD i 0 < 256 := getD_lt_256 data i hdata
  have hxb : data.getD i 0 ^^^ k < 256 := Nat.xor_lt_two_pow (n := 8) hb hkb
  rw [houter, hinner, Nat.mod_eq_of_lt hxb, Nat.xor_assoc, Nat.xor_self,
    Nat.xor_zero, Nat.mod_eq_of_lt hb, ← List.getD_eq_getElem _ 0 hi]

/-- Claim C9 witness at concrete inputs. -/
theorem mockEncrypt_involution_witness :
    mockEncrypt (mockEncrypt [1, 2, 3, 255] [65]) [65] = [1, 2, 3, 255] :=
  mockEncrypt_involution [1, 2, 3, 255] [65] (by decide)

/-- Claim C7: after `switchTool` (which calls `resetTool`) all four pieces
of application state are empty. -/
theorem switchTool_clears_state {File : Type} (tool : String)
    (s : AppState File) :
    (switchTool tool s).loadedPDFs = [] ∧
      (switchTool tool s).selectedPages = [] ∧
      (switchTool tool s).pageRotations = [] ∧
      (switchTool tool s).pageOrder = [] :=
  ⟨rfl, rfl, rfl, rfl⟩

/-- A successful association-list lookup yields a member pair. -/
theorem lookup_mem_pairs {m : List (ℕ × ℤ)} {k : ℕ} {v : ℤ}
    (h : m.lookup k = some v) : (k, v) ∈ m := by
  obtain ⟨l₁, l₂, rfl, -⟩ := List.lookup_eq_some_iff.mp h
  simp

/-- A pair in `mapSet m k v` was in `m` or carries the new value. -/
theorem mem_mapSet {m : List (ℕ × ℤ)} {k q : ℕ} {v w : ℤ}
    (h : (q, w) ∈ mapSet m k v) : (q, w) ∈ m ∨ w = v := by
  induction m with
  | nil =>
    simp only [mapSet, List.mem_singleton, Prod.mk.injEq] at h
    exact Or.inr h.2
  | cons a t ih =>
    obtain ⟨a1, a2⟩ := a
    rw [mapSet] at h
    split at h
    · rcases List.mem_cons.mp h with h1 | h1
      · exact Or.inr (Prod.mk.injEq .. ▸ h1).2
      · exact Or.inl (List.mem_cons_of_mem _ h1)
    · rcases List.mem_cons.mp h with h1 | h1
      · exact Or.inl (h1 ▸ List.mem_cons_self _ _)
      · rcases ih h1 with h2 | h2
        · exact Or.inl (List.mem_cons_of_mem _ h2)
        · exact Or.inr h2

/-- One `rotatePage` step keeps a quarter-turn rotation a quarter turn. -/
theorem quarter_step {cur deg : ℤ}
    (hc : cur = 0 ∨ cur = 90 ∨ cur = 180 ∨ cur = 270)
    (hd : deg = -90 ∨ deg = 90) :
    jsRem (cur + deg + 360) 360 = 0 ∨ jsRem (cur + deg + 360) 360 = 90 ∨
      jsRem (cur + deg + 360) 360 = 180 ∨
      jsRem (cur + deg + 360) 360 = 270 := by
  rcases hc with rfl | rfl | rfl | rfl <;> rcases hd with rfl | rfl <;> decide

/-- Folding quarter-turn calls over a map whose values are quarter turns
keeps every value a quarter turn. -/
theorem applyRotations_aux (calls : List (ℕ × ℤ)) (rot : List (ℕ × ℤ))
    (hdeg : ∀ c ∈ calls, c.2 = -90 ∨ c.2 = 90)
    (hrot : ∀ q v, (q, v) ∈ rot → v = 0 ∨ v = 90 ∨ v = 180 ∨ v = 270) :
    ∀ q v, (q, v) ∈ calls.foldl (fun r c => rotatePage r c.1 c.2) rot →
      v = 0 ∨ v = 90 ∨ v = 180 ∨ v = 270 := by
  induction calls generalizing rot with
  | nil => simpa using hrot
  | cons c t ih =>
    intro q v hv
    rw [List.foldl_cons] at hv
    refine ih _ (fun d hd => hdeg d (List.mem_cons_of_mem _ hd)) ?_ q v hv
    intro q2 v2 hmem
    rw [rotatePage] at hmem
    rcases mem_mapSet hmem with h1 | h1
    · exact hrot _ _ h1
    · subst h1
      refine quarter_step ?_ (hdeg c (List.mem_cons_self _ _))
      cases hcur : rot.lookup c.1 with
      | none => simp [hcur]
      | some w =>
        have := hrot _ _ (lookup_mem_pairs hcur)
        simpa [hcur] using this

/-- Claim C8: any sequence of `rotatePage` calls with ±90-degree arguments
leaves every accumulated rotation at 0, 90, 180 or 270. -/
theorem rotatePage_quarter_invariant (calls : List (ℕ × ℤ))
    (hdeg : ∀ c ∈ calls, c.2 = -90 ∨ c.2 = 90) (p : ℕ) (r : ℤ)
    (hr : (applyRotations calls).lookup p = some r) :
    r = 0 ∨ r = 90 ∨ r = 180 ∨ r = 270 :=
  applyRotations_aux calls [] hdeg (by simp) p r (lookup_mem_pairs hr)

/-- Claim C8 witness: two +90 rotations of page 1 accumulate to 180, a
quarter turn. -/
theorem rotatePage_quarter_invariant_witness :
    (applyRotations [(1, 90), (1, 90)]).lookup 1 = some 180 ∧
      ((180 : ℤ) = 0 ∨ (180 : ℤ) = 90 ∨ (180 : ℤ) = 180 ∨
        (180 : ℤ) = 270) :=
  ⟨by decide, rotatePage_quarter_invariant [(1, 90), (1, 90)] (by decide)
    1 180 (by decide)⟩

/-- Every index a range part contributes lies in `[0, maxPage)`. -/
theorem parseRangePart_bounds (maxPage : ℕ) (part : String) :
    ∀ i ∈ parseRangePart maxPage part, 0 ≤ i ∧ i < (maxPage : ℤ) := by
  intro i hi
  rw [parseRangePart] at hi
  split at hi
  · split at hi
    · have := List.of_mem_filter hi
      exact of_decide_eq_true this
    · simp at hi
  · split at hi
    · split at hi
      · rename_i hcond
        rw [List.mem_singleton] at hi
        exact hi ▸ hcond
      · simp at hi
    · simp at hi

/-- Every index collected over all parts lies in `[0, maxPage)`. -/
theorem parsePageRange_fold_bounds (parts : List String) (maxPage : ℕ)
    (acc : List ℤ) (hacc : ∀ i ∈ acc, 0 ≤ i ∧ i < (maxPage : ℤ)) :
    ∀ i ∈ parts.foldl (fun pages part => pages ++ parseRangePart maxPage part)
      acc, 0 ≤ i ∧ i < (maxPage : ℤ) := by
  induction parts generalizing acc with
  | nil => simpa using hacc
  | cons p t ih =>
    intro i hi
    rw [List.foldl_cons] at hi
    refine ih _ ?_ i hi
    intro j hj
    rcases List.mem_append.mp hj with h1 | h1
    · exact hacc j h1
    · exact parseRangePart_bounds maxPage p j h1

/-- Claim C10: `parsePageRange` always returns a strictly increasing list of
distinct zero-based indices inside `[0, maxPage)`; malformed parts simply
contribute nothing (the function is total). -/
theorem parsePageRange_sorted_bounds (range : String) (maxPage : ℕ) :
    List.Sorted (· < ·) (parsePageRange range maxPage) ∧
      ∀ i ∈ parsePageRange range maxPage, 0 ≤ i ∧ i < (maxPage : ℤ) := by
  constructor
  · rw [parsePageRange]
    apply List.Sorted.lt_of_le
    · exact List.sorted_insertionSort (· ≤ ·) _
    · exact ((List.perm_insertionSort (· ≤ ·) _).nodup_iff).mpr
        (List.nodup_dedup _)
  · intro i hi
    rw [parsePageRange] at hi
    have h1 : i ∈ ((range.splitOn ",").foldl
        (fun pages part => pages ++ parseRangePart maxPage part) []).dedup :=
      ((List.perm_insertionSort (· ≤ ·) _).mem_iff).mp hi
    exact parsePageRange_fold_bounds (range.splitOn ",") maxPage []
      (by simp) i (List.mem_dedup.mp h1)

/-- Claim C5: when the dynamic import of the Ghostscript WASM module throws,
`loadRealModule` returns normally with the mock module installed, and
`loadModule` completes with `isLoaded` set and status `ready`. -/
theorem loadModule_import_failure_ready (s : GSState)
    (h1 : s.isLoaded = false) (h2 : s.isLoading = false) :
    loadRealModule .failure { s with isLoading := true }
        = .ok (loadMockModule { s with isLoading := true }) ∧
      loadModule .failure s
        = .ok { s with
            hasModule := true
            isLoaded := true
            isLoading := false } ∧
      getStatus { s with
          hasModule := true
          isLoaded := true
          isLoading := false } = "ready" ∧
      GSState.isLoaded { s with
          hasModule := true
          isLoaded := true
          isLoading := false } = true := by
  obtain ⟨gs, hm, ld, lg⟩ := s
  simp only at h1 h2
  subst h1 h2
  exact ⟨rfl, rfl, rfl, rfl⟩

/-- Claim C5 witness at the freshly constructed object. -/
theorem loadModule_import_failure_ready_witness :
    loadRealModule .failure ⟨false, false, false, true⟩
        = .ok (loadMockModule ⟨false, false, false, true⟩) ∧
      loadModule .failure ⟨false, false, false, false⟩
        = .ok ⟨false, true, true, false⟩ ∧
      getStatus ⟨false, true, true, false⟩ = "ready" ∧
      GSState.isLoaded ⟨false, true, true, false⟩ = true :=
  loadModule_import_failure_ready ⟨false, false, false, false⟩ rfl rfl

/-- Setting one program counter changes the in-load count by the difference
of the old and new values. -/
theorem countP_inLoad_set {l : List CallPC} {i : ℕ} {a : CallPC} (b : CallPC)
    (h : l[i]? = some a) :
    (l.set i b).countP (· == CallPC.inLoad)
        + (if a = CallPC.inLoad then 1 else 0)
      = l.countP (· == CallPC.inLoad)
        + (if b = CallPC.inLoad then 1 else 0) := by
  obtain ⟨hlen, hget⟩ := List.getElem?_eq_some.mp h
  have hmem : a ∈ l := hget ▸ List.getElem_mem hlen
  have hcnt : a = CallPC.inLoad → 1 ≤ l.countP (· == CallPC.inLoad) :=
    fun ha => List.countP_pos_iff.mpr ⟨a, hmem, by simp [ha]⟩
  rw [List.countP_set _ _ _ _ hlen, hget]
  rcases Decidable.eq_or_ne a CallPC.inLoad with ha | ha
  · have h1 := hcnt ha
    subst ha
    rcases Decidable.eq_or_ne b CallPC.inLoad with hb | hb
    · subst hb; simp; omega
    · simp [hb]; omega
  · rcases Decidable.eq_or_ne b CallPC.inLoad with hb | hb
    · subst hb; simp [ha]
    · simp [ha, hb]

/-- Setting a non-loading counter to a non-loading counter keeps the
in-load count. -/
theorem countP_inLoad_set_of_ne {l : List CallPC} {i : ℕ} {a : CallPC}
    (b : CallPC) (h : l[i]? = some a) (ha : a ≠ CallPC.inLoad)
    (hb : b ≠ CallPC.inLoad) :
    (l.set i b).countP (· == CallPC.inLoad)
      = l.countP (· == CallPC.inLoad) := by
  have hc := countP_inLoad_set b h
  rw [if_neg ha, if_neg hb] at hc
  omega

/-- Entering the load section increments the in-load count. -/
theorem countP_inLoad_set_enter {l : List CallPC} {i : ℕ}
    (h : l[i]? = some CallPC.start) :
    (l.set i CallPC.inLoad).countP (· == CallPC.inLoad)
      = l.countP (· == CallPC.inLoad) + 1 := by
  have hc := countP_inLoad_set CallPC.inLoad h
  rw [if_neg (by decide : CallPC.start ≠ CallPC.inLoad), if_pos rfl] at hc
  omega

/-- Leaving the load section decrements the in-load count. -/
theorem countP_inLoad_set_exit {l : List CallPC} {i : ℕ} (b : CallPC)
    (h : l[i]? = some CallPC.inLoad) (hb : b ≠ CallPC.inLoad) :
    (l.set i b).countP (· == CallPC.inLoad) + 1
      = l.countP (· == CallPC.inLoad) := by
  have hc := countP_inLoad_set b h
  rw [if_pos rfl, if_neg hb] at hc
  omega

/-- Each loader step preserves the coupling between `isLoading` and the
number of calls inside `loadRealModule`. -/
theorem loaderStep_inv {s t : LoaderSys} (hst : LoaderStep s t)
    (hinv : loadsInProgress s = if s.isLoading then 1 else 0) :
    loadsInProgress t = if t.isLoading then 1 else 0 := by
  have hinv2 : s.procs.countP (· == CallPC.inLoad)
      = if s.isLoading then 1 else 0 := hinv
  clear hinv
  cases hst with
  | returnLoaded i s h hl =>
    show (s.procs.set i CallPC.done).countP (· == CallPC.inLoad)
      = if s.isLoading then 1 else 0
    rw [countP_inLoad_set_of_ne CallPC.done h (by decide) (by decide)]
    exact hinv2
  | beginPolling i s h hl hg =>
    show (s.procs.set i CallPC.poll).countP (· == CallPC.inLoad)
      = if s.isLoading then 1 else 0
    rw [countP_inLoad_set_of_ne CallPC.poll h (by decide) (by decide)]
    exact hinv2
  | beginLoad i s h hl hg =>
    show (s.procs.set i CallPC.inLoad).countP (· == CallPC.inLoad) = 1
    rw [countP_inLoad_set_enter h, hinv2, hg]
    rfl
  | pollWait i s h hg => exact hinv2
  | pollDone i s h hg =>
    show (s.procs.set i CallPC.done).countP (· == CallPC.inLoad)
      = if s.isLoading then 1 else 0
    rw [countP_inLoad_set_of_ne CallPC.done h (by decide) (by decide)]
    exact hinv2
  | finishOk i s h =>
    show (s.procs.set i CallPC.done).countP (· == CallPC.inLoad) = 0
    have hc := countP_inLoad_set_exit CallPC.done h (by decide)
    cases hsl : s.isLoading
    · rw [hsl, if_neg (by decide)] at hinv2
      omega
    · rw [hsl, if_pos rfl] at hinv2
      omega
  | finishErr i s h =>
    show (s.procs.set i CallPC.done).countP (· == CallPC.inLoad) = 0
    have hc := countP_inLoad_set_exit CallPC.done h (by decide)
    cases hsl : s.isLoading
    · rw [hsl, if_neg (by decide)] at hinv2
      omega
    · rw [hsl, if_pos rfl] at hinv2
      omega

/-- The loading-flag/count coupling holds in every reachable state. -/
theorem loaderReach_inv {n : ℕ} {s : LoaderSys}
    (h : LoaderReach (initSys n) s) :
    loadsInProgress s = if s.isLoading then 1 else 0 := by
  induction h with
  | refl => simp [initSys, loadsInProgress, List.countP_replicate]
  | tail hr hstep ih => exact loaderStep_inv hstep ih

/-- A call enters `loadRealModule` only from its synchronous entry check,
and only when nothing is loaded or loading. -/
theorem loaderStep_new_load {s t : LoaderSys} (hst : LoaderStep s t) (i : ℕ)
    (hnew : t.procs[i]? = some CallPC.inLoad) :
    s.procs[i]? = some CallPC.inLoad ∨
      (s.procs[i]? = some CallPC.start ∧ s.isLoading = false ∧
        s.isLoaded = false) := by
  cases hst with
  | returnLoaded j s h hl =>
    simp only [List.getElem?_set] at hnew
    split at hnew
    · split at hnew <;> simp_all
    · exact Or.inl hnew
  | beginPolling j s h hl hg =>
    simp only [List.getElem?_set] at hnew
    split at hnew
    · split at hnew <;> simp_all
    · exact Or.inl hnew
  | beginLoad j s h hl hg =>
    simp only [List.getElem?_set] at hnew
    split at hnew
    · rename_i hij
      subst hij
      exact Or.inr ⟨h, hg, hl⟩
    · exact Or.inl hnew
  | pollWait j s h hg => exact Or.inl hnew
  | pollDone j s h hg =>
    simp only [List.getElem?_set] at hnew
    split at hnew
    · split at hnew <;> simp_all
    · exact Or.inl hnew
  | finishOk j s h =>
    simp only [List.getElem?_set] at hnew
    split at hnew
    · split at hnew <;> simp_all
    · exact Or.inl hnew
  | finishErr j s h =>
    simp only [List.getElem?_set] at hnew
    split at hnew
    · split at hnew <;> simp_all
    · exact Or.inl hnew

/-- Claim C6: in every state reachable from fresh concurrent `loadModule`
calls, at most one call is inside `loadRealModule`; and a call can move into
`loadRealModule` only directly from its entry check when nothing is loaded
or loading — never from the polling loop, and never while another load is in
flight. -/
theorem loadModule_single_load (n : ℕ) (s t : LoaderSys) (i : ℕ)
    (hreach : LoaderReach (initSys n) s) :
    loadsInProgress s ≤ 1 ∧
      (LoaderStep s t → t.procs[i]? = some CallPC.inLoad →
        s.procs[i]? = some CallPC.inLoad ∨
          (s.procs[i]? = some CallPC.start ∧ s.isLoading = false ∧
            s.isLoaded = false)) := by
  constructor
  · have h := loaderReach_inv hreach
    rw [h]
    split <;> omega
  · intro hst hnew
    exact loaderStep_new_load hst i hnew

/-- Claim C6 witness: the initial two-call system, after one call has
atomically claimed the load. -/
theorem loadModule_single_load_witness :
    loadsInProgress ⟨[CallPC.inLoad, CallPC.start], false, true⟩ ≤ 1 ∧
      (LoaderStep ⟨[CallPC.inLoad, CallPC.start], false, true⟩
          ⟨[CallPC.inLoad, CallPC.start], false, true⟩ →
        (⟨[CallPC.inLoad, CallPC.start], false, true⟩ :
            LoaderSys).procs[0]? = some CallPC.inLoad →
        (⟨[CallPC.inLoad, CallPC.start], false, true⟩ :
            LoaderSys).procs[0]? = some CallPC.inLoad ∨
          ((⟨[CallPC.inLoad, CallPC.start], false, true⟩ :
              LoaderSys).procs[0]? = some CallPC.start ∧
            (⟨[CallPC.inLoad, CallPC.start], false, true⟩ :
              LoaderSys).isLoading = false ∧
            (⟨[CallPC.inLoad, CallPC.start], false, true⟩ :
              LoaderSys).isLoaded = false)) :=
  loadModule_single_load 2 ⟨[CallPC.inLoad, CallPC.start], false, true⟩
    ⟨[CallPC.inLoad, CallPC.start], false, true⟩ 0
    (LoaderReach.tail (LoaderReach.refl _)
      (LoaderStep.beginLoad 0 (initSys 2) rfl rfl rfl))

/-! ## Lemmas about the double-rounding model -/

/-- Characterization of `bitsAbove53`: zero for small inputs, otherwise the
distance to a 53-bit significand. -/
theorem bitsAbove53_spec (fuel n : ℕ) (hf : n ≤ fuel) :
    (n < 2 ^ 53 ∧ bitsAbove53 fuel n = 0) ∨
      (1 ≤ bitsAbove53 fuel n ∧ 2 ^ (52 + bitsAbove53 fuel n) ≤ n ∧
        n < 2 ^ (53 + bitsAbove53 fuel n)) := by
  induction fuel generalizing n with
  | zero =>
    left
    exact ⟨by omega, rfl⟩
  | succ fuel ih =>
    have hstep : bitsAbove53 (fuel + 1) n
        = if n < 2 ^ 53 then 0 else bitsAbove53 fuel (n / 2) + 1 := rfl
    by_cases h53 : n < 2 ^ 53
    · left
      exact ⟨h53, by rw [hstep, if_pos h53]⟩
    · right
      have hn1 : 1 ≤ n := by omega
      have hrec : bitsAbove53 (fuel + 1) n = bitsAbove53 fuel (n / 2) + 1 := by
        rw [hstep, if_neg h53]
      have hhalf : n / 2 ≤ fuel := by
        have : n / 2 < n := Nat.div_lt_self (by omega) (by omega)
        omega
      rcases ih (n / 2) hhalf with ⟨h1, h2⟩ | ⟨h1, h2, h3⟩
      · rw [hrec, h2]
        have e1 : (2 : ℕ) ^ (53 + 1) = 2 * 2 ^ 53 := by ring
        refine ⟨by omega, by simpa using h53, ?_⟩
        rw [e1]
        omega
      · rw [hrec]
        set e := bitsAbove53 fuel (n / 2) with he
        have e1 : (2 : ℕ) ^ (52 + (e + 1)) = 2 * 2 ^ (52 + e) := by ring
        have e2 : (2 : ℕ) ^ (53 + (e + 1)) = 2 * 2 ^ (53 + e) := by ring
        refine ⟨by omega, ?_, ?_⟩
        · rw [e1]; omega
        · rw [e2]; omega

/-- A value already fitting in 53 bits has no excess. -/
theorem excess_eq_zero {n : ℕ} (h : n < 2 ^ 53) : excess n = 0 := by
  have hs := bitsAbove53_spec n n le_rfl
  rw [show bitsAbove53 n n = excess n from rfl] at hs
  rcases hs with ⟨-, h2⟩ | ⟨h1, h2, -⟩
  · exact h2
  · exfalso
    have hp : (2 : ℕ) ^ 53 ≤ 2 ^ (52 + excess n) :=
      Nat.pow_le_pow_right (by omega) (by omega)
    exact absurd (le_trans hp h2) (by omega)

/-- A value of 54 or more bits has positive excess, bracketed by powers
of two. -/
theorem excess_bounds {n : ℕ} (h : 2 ^ 53 ≤ n) :
    1 ≤ excess n ∧ 2 ^ (52 + excess n) ≤ n ∧ n < 2 ^ (53 + excess n) := by
  have hs := bitsAbove53_spec n n le_rfl
  rw [show bitsAbove53 n n = excess n from rfl] at hs
  rcases hs with ⟨h1, -⟩ | hb
  · omega
  · exact hb

/-- Small dyadics round to themselves. -/
theorem roundDouble_small {m k : ℕ} (h : m < 2 ^ 53) :
    roundDouble ⟨m, k⟩ = ⟨m, k⟩ := by
  simp [roundDouble, excess_eq_zero h]

/-- `roundSig` moves a value by at most half a grid step. -/
theorem roundSig_close (m d : ℕ) (hd : 1 ≤ d) :
    m ≤ roundSig m d * 2 ^ d + 2 ^ (d - 1) ∧
      roundSig m d * 2 ^ d ≤ m + 2 ^ (d - 1) := by
  have hqr : 2 ^ d * (m / 2 ^ d) + m % 2 ^ d = m := Nat.div_add_mod m (2 ^ d)
  have hr : m % 2 ^ d < 2 ^ d := Nat.mod_lt m (by positivity)
  have hpow : (2 : ℕ) ^ d = 2 * 2 ^ (d - 1) := by
    rw [← pow_succ']
    congr 1
    omega
  unfold roundSig
  split
  · rename_i hc
    have hge : 2 ^ (d - 1) ≤ m % 2 ^ d := by
      rcases hc with hlt | ⟨heq, -⟩
      · omega
      · omega
    have e1 : (m / 2 ^ d + 1) * 2 ^ d = 2 ^ d * (m / 2 ^ d) + 2 ^ d := by
      ring
    rw [e1]
    omega
  · rename_i hc
    push_neg at hc
    have hle : m % 2 ^ d ≤ 2 ^ (d - 1) := hc.1
    have e1 : m / 2 ^ d * 2 ^ d = 2 ^ d * (m / 2 ^ d) := by ring
    rw [e1]
    omega

theorem Dyadic.toRat_nonneg (x : Dyadic) : 0 ≤ x.toRat := by
  rw [Dyadic.toRat]
  positivity

/-- `Math.floor` of a dyadic is the natural floor of its value. -/
theorem floorNat_eq (x : Dyadic) : x.floorNat = ⌊x.toRat⌋₊ := by
  rw [Dyadic.floorNat, Dyadic.toRat]
  rw [show ((2 : ℚ) ^ x.k) = ((2 ^ x.k : ℕ) : ℚ) by push_cast; ring]
  rw [Nat.floor_div_nat, Nat.floor_natCast]

/-- In the big branch, `roundDouble` keeps the denominator and rounds the
numerator to a multiple of the grid step. -/
theorem roundDouble_case_le {m k : ℕ} (h0 : excess m ≠ 0)
    (hk : excess m ≤ k) :
    roundDouble ⟨m, k⟩ = ⟨roundSig m (excess m), k - excess m⟩ := by
  simp only [roundDouble]
  rw [if_neg h0, if_pos hk]

/-- The value of the rounded dyadic, in either big branch. -/
theorem roundDouble_toRat_big {m k : ℕ} (h : 2 ^ 53 ≤ m) :
    (roundDouble ⟨m, k⟩).toRat
      = ((roundSig m (excess m) * 2 ^ excess m : ℕ) : ℚ) / 2 ^ k := by
  obtain ⟨hd1, hlow, hhigh⟩ := excess_bounds h
  simp only [roundDouble]
  rw [if_neg (by omega)]
  split
  · rename_i hdk
    rw [Dyadic.toRat]
    push_cast
    have hsplit : (2 : ℚ) ^ k = 2 ^ (k - excess m) * 2 ^ excess m := by
      rw [← pow_add]
      congr 1
      omega
    rw [hsplit]
    exact (mul_div_mul_right _ _ (by positivity)).symm
  · rename_i hdk
    rw [Dyadic.toRat]
    push_cast
    rw [pow_zero, div_one, eq_div_iff (by positivity), mul_assoc,
      ← pow_add]
    congr 2
    omega

/-- One double rounding moves a nonnegative dyadic by at most a relative
`2^-53`. -/
theorem roundDouble_close (x : Dyadic) :
    x.toRat - x.toRat / 2 ^ 53 ≤ (roundDouble x).toRat ∧
      (roundDouble x).toRat ≤ x.toRat + x.toRat / 2 ^ 53 := by
  obtain ⟨m, k⟩ := x
  rcases Nat.lt_or_ge m (2 ^ 53) with hm | hm
  · rw [roundDouble_small hm]
    have h0 : 0 ≤ (Dyadic.toRat ⟨m, k⟩) / 2 ^ 53 :=
      div_nonneg (Dyadic.toRat_nonneg _) (by positivity)
    constructor <;> linarith
  · obtain ⟨hd1, hlow, hhigh⟩ := excess_bounds hm
    obtain ⟨hc1, hc2⟩ := roundSig_close m (excess m) hd1
    rw [roundDouble_toRat_big hm]
    have hhalf : ((2 : ℚ) ^ (excess m - 1)) ≤ (m : ℚ) / 2 ^ 53 := by
      rw [le_div_iff (by positivity)]
      have hnn : (2 : ℕ) ^ (excess m - 1) * 2 ^ 53 = 2 ^ (52 + excess m) := by
        rw [← pow_add]
        congr 1
        omega
      calc ((2 : ℚ) ^ (excess m - 1)) * 2 ^ 53
          = ((2 ^ (excess m - 1) * 2 ^ 53 : ℕ) : ℚ) := by push_cast; ring
        _ = ((2 ^ (52 + excess m) : ℕ) : ℚ) := by rw [hnn]
        _ ≤ (m : ℚ) := by exact_mod_cast hlow
    have hC1 : (m : ℚ) ≤ ((roundSig m (excess m) * 2 ^ excess m : ℕ) : ℚ)
        + 2 ^ (excess m - 1) := by exact_mod_cast hc1
    have hC2 : ((roundSig m (excess m) * 2 ^ excess m : ℕ) : ℚ)
        ≤ (m : ℚ) + 2 ^ (excess m - 1) := by exact_mod_cast hc2
    have hpk : (0 : ℚ) < 2 ^ k := by positivity
    rw [show Dyadic.toRat ⟨m, k⟩ = (m : ℚ) / 2 ^ k from rfl]
    constructor
    · have key : (m : ℚ) - (m : ℚ) / 2 ^ 53
          ≤ ((roundSig m (excess m) * 2 ^ excess m : ℕ) : ℚ) := by linarith
      calc (m : ℚ) / 2 ^ k - (m : ℚ) / 2 ^ k / 2 ^ 53
          = ((m : ℚ) - (m : ℚ) / 2 ^ 53) / 2 ^ k := by ring
        _ ≤ ((roundSig m (excess m) * 2 ^ excess m : ℕ) : ℚ) / 2 ^ k :=
            (div_le_div_right hpk).mpr key
    · have key : ((roundSig m (excess m) * 2 ^ excess m : ℕ) : ℚ)
          ≤ (m : ℚ) + (m : ℚ) / 2 ^ 53 := by linarith
      calc ((roundSig m (excess m) * 2 ^ excess m : ℕ) : ℚ) / 2 ^ k
          ≤ ((m : ℚ) + (m : ℚ) / 2 ^ 53) / 2 ^ k :=
            (div_le_div_right hpk).mpr key
        _ = (m : ℚ) / 2 ^ k + (m : ℚ) / 2 ^ k / 2 ^ 53 := by ring

/-- A numerator just below a grid multiple (by less than half a step) rounds
up to it exactly. -/
theorem roundSig_exact_up {F K d c : ℕ} (hd : 1 ≤ d) (hdK : d ≤ K)
    (hc0 : 0 < c) (hch : c < 2 ^ (d - 1)) (hF : 1 ≤ F) :
    roundSig (F * 2 ^ K - c) d = F * 2 ^ (K - d) := by
  have hAB : (2 : ℕ) ^ d * 2 ^ (K - d) = 2 ^ K := by
    rw [← pow_add]
    congr 1
    omega
  have hpow : (2 : ℕ) ^ d = 2 * 2 ^ (d - 1) := by
    rw [← pow_succ']
    congr 1
    omega
  have hG1 : 1 ≤ F * 2 ^ (K - d) :=
    Nat.mul_pos (by omega) (by positivity)
  have hdKpow : (2 : ℕ) ^ d ≤ 2 ^ K := Nat.pow_le_pow_right (by omega) hdK
  have h2dF : 2 ^ d ≤ F * 2 ^ K :=
    le_trans hdKpow (Nat.le_mul_of_pos_left _ (by omega))
  have key : (2 ^ d - c) + 2 ^ d * (F * 2 ^ (K - d) - 1) = F * 2 ^ K - c := by
    have e1 : 2 ^ d * (F * 2 ^ (K - d) - 1) = F * 2 ^ K - 2 ^ d := by
      rw [Nat.mul_sub, Nat.mul_one]
      congr 1
      rw [show (2 : ℕ) ^ d * (F * 2 ^ (K - d))
          = F * (2 ^ d * 2 ^ (K - d)) by ring, hAB]
    rw [e1]
    omega
  obtain ⟨hdiv, hmod⟩ :=
    (Nat.div_mod_unique (a := F * 2 ^ K - c) (b := 2 ^ d)
      (c := 2 ^ d - c) (d := F * 2 ^ (K - d) - 1) (by positivity)).mpr
      ⟨key, by omega⟩
  unfold roundSig
  rw [hdiv, hmod, if_pos (Or.inl (by omega))]
  omega

/-- Exact case of the mock size: when the scaled length is an exact grid
multiple minus a sub-half-step defect, the double product floors to the
exact ratio. -/
theorem floorNat_roundDouble_exact (a K P Q D t : ℕ)
    (hP : 0 < P) (hD : 0 < D) (ht : 0 < t)
    (hn : Q * t ≤ 2 ^ 40)
    (hPQ : Q * a + D = P * 2 ^ K) (haK : a < 2 ^ K)
    (hQa53 : 2 ^ 53 ≤ Q * a) (hErr : 2 ^ 54 * D ≤ Q * a) :
    (roundDouble ⟨Q * t * a, K⟩).floorNat = P * t := by
  have hM53 : 2 ^ 53 ≤ Q * t * a := by
    calc (2 : ℕ) ^ 53 ≤ Q * a := hQa53
      _ ≤ Q * a * t := Nat.le_mul_of_pos_right _ ht
      _ = Q * t * a := by ring
  obtain ⟨hd1, hlow, hhigh⟩ := excess_bounds hM53
  have hdK : excess (Q * t * a) ≤ K := by
    have hMlt : Q * t * a < 2 ^ (40 + K) := by
      calc Q * t * a ≤ 2 ^ 40 * a := Nat.mul_le_mul_right a hn
        _ < 2 ^ 40 * a + 2 ^ 40 := by omega
        _ = 2 ^ 40 * (a + 1) := by ring
        _ ≤ 2 ^ 40 * 2 ^ K := Nat.mul_le_mul_left _ haK
        _ = 2 ^ (40 + K) := by rw [pow_add]
    have h1 : (2 : ℕ) ^ (52 + excess (Q * t * a)) < 2 ^ (40 + K) :=
      lt_of_le_of_lt hlow hMlt
    have h2 := (Nat.pow_lt_pow_iff_right (a := 2) (by omega)).mp h1
    omega
  have hMc : Q * t * a + t * D = P * t * 2 ^ K := by
    have e1 : Q * a * t + D * t = (Q * a + D) * t := (Nat.add_mul _ _ _).symm
    have e2 : (Q * a + D) * t = P * 2 ^ K * t := by rw [hPQ]
    have e3 : Q * t * a = Q * a * t := by ring
    have e4 : t * D = D * t := by ring
    have e5 : P * 2 ^ K * t = P * t * 2 ^ K := by ring
    omega
  have hc1 : 0 < t * D := Nat.mul_pos ht hD
  have hchalf : t * D < 2 ^ (excess (Q * t * a) - 1) := by
    have h1 : 2 ^ 54 * (t * D) ≤ Q * t * a := by
      calc 2 ^ 54 * (t * D) = 2 ^ 54 * D * t := by ring
        _ ≤ Q * a * t := Nat.mul_le_mul_right t hErr
        _ = Q * t * a := by ring
    have h2 : Q * t * a < 2 ^ 54 * 2 ^ (excess (Q * t * a) - 1) := by
      calc Q * t * a < 2 ^ (53 + excess (Q * t * a)) := hhigh
        _ = 2 ^ 54 * 2 ^ (excess (Q * t * a) - 1) := by
            rw [← pow_add]
            congr 1
            omega
    exact Nat.lt_of_mul_lt_mul_left (lt_of_le_of_lt h1 h2)
  have hFt : 1 ≤ P * t := Nat.mul_pos hP ht
  have hMrw : Q * t * a = P * t * 2 ^ K - t * D := by omega
  have hsig : roundSig (Q * t * a) (excess (Q * t * a))
      = P * t * 2 ^ (K - excess (Q * t * a)) := by
    have h := roundSig_exact_up (F := P * t) (K := K)
      (d := excess (Q * t * a)) (c := t * D) hd1 hdK hc1 hchalf hFt
    rw [← hMrw] at h
    exact h
  rw [roundDouble_case_le (by omega) hdK, Dyadic.floorNat, hsig]
  exact Nat.mul_div_cancel _ (by positivity)

/-- Unfolding of the mock size for a numeric ratio. -/
theorem simulateCompressionLength_num {n : ℕ} {q : String} {r : Dyadic}
    (hq : getCompressionRatio q = .num r) :
    simulateCompressionLength n q
      = (roundDouble (dyadicMul (roundDouble ⟨n, 0⟩) r)).floorNat := by
  rw [simulateCompressionLength, hq]

/-- Unfolding of the mock size when the quality string names an inherited
`Object.prototype` member: the `NaN`-sized buffer is empty. -/
theorem simulateCompressionLength_protoMember {n : ℕ} {q : String}
    (hq : getCompressionRatio q = .protoMember) :
    simulateCompressionLength n q = 0 := by
  rw [simulateCompressionLength, hq]

/-- Quality strings that resolve to the exact double 0.5 floor to the exact
half. -/
theorem simulateCompressionLength_half (n : ℕ) (q : String) (hn : n < 2 ^ 53)
    (hq : getCompressionRatio q = .num jsDouble05) :
    simulateCompressionLength n q = n / 2 := by
  rw [simulateCompressionLength_num hq, roundDouble_small hn]
  rw [show dyadicMul ⟨n, 0⟩ jsDouble05 = ⟨n * 1, 1⟩ from rfl,
    Nat.mul_one, roundDouble_small hn, Dyadic.floorNat, pow_one]

/-- The mock size at quality `screen` is the exact `floor(n * 0.3)`. -/
theorem simulateCompressionLength_screen (n : ℕ) (hn : n ≤ 2 ^ 40) :
    simulateCompressionLength n "screen" = n * 3 / 10 := by
  have hn53 : n < 2 ^ 53 := lt_of_le_of_lt hn (by norm_num)
  have hred : simulateCompressionLength n "screen"
      = (roundDouble ⟨n * 5404319552844595, 54⟩).floorNat := by
    rw [simulateCompressionLength_num
        (show getCompressionRatio "screen" = .num jsDouble03 from rfl),
      roundDouble_small hn53,
      show dyadicMul ⟨n, 0⟩ jsDouble03 = ⟨n * 5404319552844595, 54⟩ from rfl]
  rw [hred]
  rcases Nat.eq_zero_or_pos n with rfl | hn0
  · rw [show (0 : ℕ) * 5404319552844595 = 0 from rfl,
      roundDouble_small (by norm_num), Dyadic.floorNat]
    norm_num
  by_cases hdvd : 10 ∣ n
  · obtain ⟨t, rfl⟩ := hdvd
    have ht : 0 < t := by omega
    have h := floorNat_roundDouble_exact 5404319552844595 54 3 10 2 t
      (by omega) (by omega) ht hn (by norm_num) (by norm_num) (by norm_num)
      (by norm_num)
    rw [h]
    omega
  · have hρ1 : 1 ≤ n * 3 % 10 := by omega
    have hρ9 : n * 3 % 10 ≤ 9 := by omega
    have hqr : 10 * (n * 3 / 10) + n * 3 % 10 = n * 3 := by omega
    obtain ⟨hy1, hy2⟩ := roundDouble_close ⟨n * 5404319552844595, 54⟩
    rw [floorNat_eq]
    have hv : (Dyadic.toRat ⟨n * 5404319552844595, 54⟩)
        = (n : ℚ) * 5404319552844595 / 2 ^ 54 := by
      rw [Dyadic.toRat]
      push_cast
      ring
    have hy0 : 0 ≤ (roundDouble ⟨n * 5404319552844595, 54⟩).toRat :=
      Dyadic.toRat_nonneg _
    rw [Nat.floor_eq_iff hy0]
    have hcast : (10 : ℚ) * ((n * 3 / 10 : ℕ) : ℚ) + ((n * 3 % 10 : ℕ) : ℚ)
        = (n : ℚ) * 3 := by
      exact_mod_cast congrArg (fun z : ℕ => (z : ℚ)) hqr
    have hn40 : (n : ℚ) ≤ 2 ^ 40 := by exact_mod_cast hn
    have hρ1q : (1 : ℚ) ≤ ((n * 3 % 10 : ℕ) : ℚ) := by exact_mod_cast hρ1
    have hρ9q : ((n * 3 % 10 : ℕ) : ℚ) ≤ 9 := by exact_mod_cast hρ9
    have hn0q : (0 : ℚ) ≤ (n : ℚ) := by positivity
    rw [hv] at hy1 hy2
    constructor
    · linarith
    · linarith

/-- The mock size at quality `prepress` is the exact `floor(n * 0.85)`. -/
theorem simulateCompressionLength_prepress (n : ℕ) (hn : n ≤ 2 ^ 40) :
    simulateCompressionLength n "prepress" = n * 17 / 20 := by
  have hn53 : n < 2 ^ 53 := lt_of_le_of_lt hn (by norm_num)
  have hred : simulateCompressionLength n "prepress"
      = (roundDouble ⟨n * 7656119366529843, 53⟩).floorNat := by
    rw [simulateCompressionLength_num
        (show getCompressionRatio "prepress" = .num jsDouble085 from rfl),
      roundDouble_small hn53,
      show dyadicMul ⟨n, 0⟩ jsDouble085 = ⟨n * 7656119366529843, 53⟩ from rfl]
  rw [hred]
  rcases Nat.eq_zero_or_pos n with rfl | hn0
  · rw [show (0 : ℕ) * 7656119366529843 = 0 from rfl,
      roundDouble_small (by norm_num), Dyadic.floorNat]
    norm_num
  by_cases hdvd : 20 ∣ n
  · obtain ⟨t, rfl⟩ := hdvd
    have ht : 0 < t := by omega
    have h := floorNat_roundDouble_exact 7656119366529843 53 17 20 4 t
      (by omega) (by omega) ht hn (by norm_num) (by norm_num) (by norm_num)
      (by norm_num)
    rw [h]
    omega
  · have hρ1 : 1 ≤ n * 17 % 20 := by omega
    have hρ19 : n * 17 % 20 ≤ 19 := by omega
    have hqr : 20 * (n * 17 / 20) + n * 17 % 20 = n * 17 := by omega
    obtain ⟨hy1, hy2⟩ := roundDouble_close ⟨n * 7656119366529843, 53⟩
    rw [floorNat_eq]
    have hv : (Dyadic.toRat ⟨n * 7656119366529843, 53⟩)
        = (n : ℚ) * 7656119366529843 / 2 ^ 53 := by
      rw [Dyadic.toRat]
      push_cast
      ring
    have hy0 : 0 ≤ (roundDouble ⟨n * 7656119366529843, 53⟩).toRat :=
      Dyadic.toRat_nonneg _
    rw [Nat.floor_eq_iff hy0]
    have hcast : (20 : ℚ) * ((n * 17 / 20 : ℕ) : ℚ)
        + ((n * 17 % 20 : ℕ) : ℚ) = (n : ℚ) * 17 := by
      exact_mod_cast congrArg (fun z : ℕ => (z : ℚ)) hqr
    have hn40 : (n : ℚ) ≤ 2 ^ 40 := by exact_mod_cast hn
    have hρ1q : (1 : ℚ) ≤ ((n * 17 % 20 : ℕ) : ℚ) := by exact_mod_cast hρ1
    have hρ19q : ((n * 17 % 20 : ℕ) : ℚ) ≤ 19 := by exact_mod_cast hρ19
    have hn0q : (0 : ℚ) ≤ (n : ℚ) := by positivity
    rw [hv] at hy1 hy2
    constructor
    · linarith
    · linarith

/-- The mock size at quality `printer` is the exact `floor(n * 0.7)` or one
less (the double product of `n` and the nearest double to 0.7 can round just
below an exact multiple). -/
theorem simulateCompressionLength_printer (n : ℕ) (hn : n ≤ 2 ^ 40) :
    simulateCompressionLength n "printer" = n * 7 / 10 ∨
      simulateCompressionLength n "printer" + 1 = n * 7 / 10 := by
  have hn53 : n < 2 ^ 53 := lt_of_le_of_lt hn (by norm_num)
  have hred : simulateCompressionLength n "printer"
      = (roundDouble ⟨n * 3152519739159347, 52⟩).floorNat := by
    rw [simulateCompressionLength_num
        (show getCompressionRatio "printer" = .num jsDouble07 from rfl),
      roundDouble_small hn53,
      show dyadicMul ⟨n, 0⟩ jsDouble07 = ⟨n * 3152519739159347, 52⟩ from rfl]
  rw [hred]
  have hρ9 : n * 7 % 10 ≤ 9 := by omega
  have hqr : 10 * (n * 7 / 10) + n * 7 % 10 = n * 7 := by omega
  obtain ⟨hy1, hy2⟩ := roundDouble_close ⟨n * 3152519739159347, 52⟩
  rw [floorNat_eq]
  have hv : (Dyadic.toRat ⟨n * 3152519739159347, 52⟩)
      = (n : ℚ) * 3152519739159347 / 2 ^ 52 := by
    rw [Dyadic.toRat]
    push_cast
    ring
  have hy0 : 0 ≤ (roundDouble ⟨n * 3152519739159347, 52⟩).toRat :=
    Dyadic.toRat_nonneg _
  have hcast : (10 : ℚ) * ((n * 7 / 10 : ℕ) : ℚ) + ((n * 7 % 10 : ℕ) : ℚ)
      = (n : ℚ) * 7 := by
    exact_mod_cast congrArg (fun z : ℕ => (z : ℚ)) hqr
  have hn40 : (n : ℚ) ≤ 2 ^ 40 := by exact_mod_cast hn
  have hρ9q : ((n * 7 % 10 : ℕ) : ℚ) ≤ 9 := by exact_mod_cast hρ9
  have hρ0q : (0 : ℚ) ≤ ((n * 7 % 10 : ℕ) : ℚ) := by positivity
  have hn0q : (0 : ℚ) ≤ (n : ℚ) := by positivity
  rw [hv] at hy1 hy2
  have hub : ⌊(roundDouble ⟨n * 3152519739159347, 52⟩).toRat⌋₊
      ≤ n * 7 / 10 := by
    have hlt : (roundDouble ⟨n * 3152519739159347, 52⟩).toRat
        < ((n * 7 / 10 : ℕ) : ℚ) + 1 := by linarith
    have := (Nat.floor_lt hy0).mpr (by
      rw [show (((n * 7 / 10 + 1 : ℕ)) : ℚ) = ((n * 7 / 10 : ℕ) : ℚ) + 1 by
        push_cast; ring]
      exact hlt)
    omega
  rcases Nat.eq_zero_or_pos (n * 7 / 10) with hz | hpos
  · left
    omega
  · have hlb : n * 7 / 10 - 1
        ≤ ⌊(roundDouble ⟨n * 3152519739159347, 52⟩).toRat⌋₊ := by
      apply Nat.le_floor
      have hc1 : (((n * 7 / 10 - 1 : ℕ)) : ℚ) = ((n * 7 / 10 : ℕ) : ℚ) - 1 := by
        rw [Nat.cast_sub hpos, Nat.cast_one]
      rw [hc1]
      linarith
    omega

/-- Claim C4 counterexample: at a 90-byte input with quality `printer`, the
mock compression produces 62 bytes (the double-precision product
`90 * 0.7` is just below 63 and `Math.floor` lands at 62), while the
claimed `floor(inputLength * 0.7)` is 63. -/
theorem simulateCompression_floor_counterexample :
    simulateCompressionLength 90 "printer" = 62 ∧
      ⌊(90 : ℚ) * (7 / 10)⌋ = 63 :=
  ⟨by decide, by norm_num⟩

/-- The mock size at quality `printer` agrees with the exact
`floor(n * 0.7)` for every input below 90 bytes: the counterexample input is
the least discrepancy. -/
theorem simulateCompressionLength_printer_small :
    ∀ m, m < 90 → simulateCompressionLength m "printer" = m * 7 / 10 := by
  decide

/-- Claim C4 (amended): for inputs up to `2^40` bytes, the mock output
length is exactly `floor(inputLength * r)` for `screen` (r = 0.3), `ebook`
(r = 0.5), `prepress` (r = 0.85) and any unrecognized quality that is not
an inherited `Object.prototype` property name (r = 0.5); for a quality
string naming an `Object.prototype` member the ratio lookup yields a truthy
non-number and the output buffer is empty; for `printer` the
double-precision product of the length with the closest double to 0.7 makes
the output `floor(inputLength * 0.7)` or exactly one less, with no
discrepancy below 90 bytes. -/
theorem mockCompression_length_amended (n : ℕ) (q : String)
    (hn : n ≤ 2 ^ 40) :
    (q ≠ "printer" → q ∉ objectProtoNames →
      simulateCompressionLength n q
        = n * (claimedRatio q).1 / (claimedRatio q).2) ∧
    (q ∈ objectProtoNames → simulateCompressionLength n q = 0) ∧
    (q = "printer" →
      (simulateCompressionLength n q = n * 7 / 10 ∨
        simulateCompressionLength n q + 1 = n * 7 / 10) ∧
      (n < 90 → simulateCompressionLength n q = n * 7 / 10)) := by
  have hn53 : n < 2 ^ 53 := lt_of_le_of_lt hn (by norm_num)
  refine ⟨?_, ?_, ?_⟩
  · intro hq hproto
    by_cases h1 : q = "screen"
    · subst h1
      rw [show claimedRatio "screen" = (3, 10) from rfl]
      exact simulateCompressionLength_screen n hn
    by_cases h2 : q = "ebook"
    · subst h2
      rw [show claimedRatio "ebook" = (1, 2) from rfl,
        simulateCompressionLength_half n "ebook" hn53 rfl]
      simp
    by_cases h4 : q = "prepress"
    · subst h4
      rw [show claimedRatio "prepress" = (17, 20) from rfl]
      exact simulateCompressionLength_prepress n hn
    · have hrq : getCompressionRatio q = .num jsDouble05 := by
        rw [getCompressionRatio, if_neg h1, if_neg h2, if_neg hq, if_neg h4,
          if_neg hproto]
      have hcq : claimedRatio q = (1, 2) := by
        rw [claimedRatio, if_neg h1, if_neg h2, if_neg hq, if_neg h4]
      rw [hcq, simulateCompressionLength_half n q hn53 hrq]
      simp
  · intro hq
    have h1 : q ≠ "screen" := by rintro rfl; exact absurd hq (by decide)
    have h2 : q ≠ "ebook" := by rintro rfl; exact absurd hq (by decide)
    have h3 : q ≠ "printer" := by rintro rfl; exact absurd hq (by decide)
    have h4 : q ≠ "prepress" := by rintro rfl; exact absurd hq (by decide)
    exact simulateCompressionLength_protoMember
      (by rw [getCompressionRatio, if_neg h1, if_neg h2, if_neg h3,
        if_neg h4, if_pos hq])
  · intro hq
    subst hq
    exact ⟨simulateCompressionLength_printer n hn,
      fun hlt => simulateCompressionLength_printer_small n hlt⟩

/-- Claim C4 (amended) witness at the counterexample input. -/
theorem mockCompression_length_amended_witness :
    (("printer" : String) ≠ "printer" → "printer" ∉ objectProtoNames →
      simulateCompressionLength 90 "printer"
        = 90 * (claimedRatio "printer").1 / (claimedRatio "printer").2) ∧
    (("printer" : String) ∈ objectProtoNames →
      simulateCompressionLength 90 "printer" = 0) ∧
    (("printer" : String) = "printer" →
      (simulateCompressionLength 90 "printer" = 90 * 7 / 10 ∨
        simulateCompressionLength 90 "printer" + 1 = 90 * 7 / 10) ∧
      (90 < 90 → simulateCompressionLength 90 "printer" = 90 * 7 / 10)) :=
  mockCompression_length_amended 90 "printer" (by norm_num)

end PrivPdf
